import Mathlib

/-!
Verification of the data-augmentation layer (`rl4co/data/transforms.py`) and the
POMO policy orchestrator (`ncobench/models/co/pomo/policy.py`).

Tensors of shape `[batch, graph, 2]` are embedded as lists of lists of exact
rational (or real, where trigonometry is involved) coordinate pairs: the outer
list is the batch axis, the inner list the node axis, and the pair is `(x, y)`.
Fallible tensor operations (out-of-range indexing, which raises in torch, and
float divisions whose result is non-finite) are embedded in `Option`.
-/

namespace RL4CO

/-- A `[batch, graph, 2]` coordinate tensor with exact rational entries. -/
abbrev T3 := List (List (ℚ × ℚ))

/-- Embedding of `dihedral_8_augmentation` from `rl4co/data/transforms.py`: splits the last
axis into `x` and `y`, builds the eight symmetry images `z0 .. z7` of the unit
square and concatenates them along the batch axis, in this order. -/
def dihedral_8_augmentation (xy : T3) : T3 :=
  let z0 := xy.map (List.map (fun p => (p.1, p.2)))
  let z1 := xy.map (List.map (fun p => (1 - p.1, p.2)))
  let z2 := xy.map (List.map (fun p => (p.1, 1 - p.2)))
  let z3 := xy.map (List.map (fun p => (1 - p.1, 1 - p.2)))
  let z4 := xy.map (List.map (fun p => (p.2, p.1)))
  let z5 := xy.map (List.map (fun p => (1 - p.2, p.1)))
  let z6 := xy.map (List.map (fun p => (p.2, 1 - p.1)))
  let z7 := xy.map (List.map (fun p => (1 - p.2, 1 - p.1)))
  z0 ++ z1 ++ z2 ++ z3 ++ z4 ++ z5 ++ z6 ++ z7

/-- Embedding of `dihedral_8_augmentation_wrapper` from `rl4co/data/transforms.py`: when
`reduce` is set, keeps only the first eighth of the batch before augmenting. -/
def dihedral_8_augmentation_wrapper (xy : T3) (reduce : Bool) : T3 :=
  dihedral_8_augmentation (if reduce then xy.take (xy.length / 8) else xy)

/-- The pointwise image applied inside batch-slice `k` of
`dihedral_8_augmentation` (`z0 .. z7` read off the source, in order). -/
def dihedralImage (k : Fin 8) (p : ℚ × ℚ) : ℚ × ℚ :=
  match k.val with
  | 0 => (p.1, p.2)
  | 1 => (1 - p.1, p.2)
  | 2 => (p.1, 1 - p.2)
  | 3 => (1 - p.1, 1 - p.2)
  | 4 => (p.2, p.1)
  | 5 => (1 - p.2, p.1)
  | 6 => (p.2, 1 - p.1)
  | _ => (1 - p.2, 1 - p.1)

/-- The eight pointwise maps of `dihedral_8_augmentation`, as a list, in the
order in which their images are stacked along the batch axis. -/
def dihedralFns : List ((ℚ × ℚ) → (ℚ × ℚ)) :=
  [fun p => (p.1, p.2), fun p => (1 - p.1, p.2), fun p => (p.1, 1 - p.2),
   fun p => (1 - p.1, 1 - p.2), fun p => (p.2, p.1), fun p => (1 - p.2, p.1),
   fun p => (p.2, 1 - p.1), fun p => (1 - p.2, 1 - p.1)]

/-- Index of the group inverse of dihedral image `k`: the two 90-degree
rotations `z5` and `z6` are inverse to each other, every other image is an
involution. -/
def dinv (k : Fin 8) : Fin 8 :=
  match k.val with
  | 5 => 6
  | 6 => 5
  | _ => k

/-- A real-valued `[batch, graph, 2]` coordinate tensor, for the transforms
that involve trigonometry. -/
abbrev T3R := List (List (ℝ × ℝ))

/-- The per-coordinate-pair computation of `symmetric_transform` from
`rl4co/data/transforms.py`: recenter by `offset`, rotate by `phi`, swap the
two axes when `phi > 2 * pi` (the `torch.where(mask, xy.flip(-1), xy)` step),
and restore the offset.  The source vectorizes this over `[batch, graph, 1]`
`x`/`y` tensors with one `phi` per batch row; the pair `p` is one `(x, y)`
entry and `phi` the angle of its batch row. -/
noncomputable def symmetric_transform_point (p : ℝ × ℝ) (phi offset : ℝ) :
    ℝ × ℝ :=
  let x := p.1 - offset
  let y := p.2 - offset
  let x_prime := Real.cos phi * x - Real.sin phi * y
  let y_prime := Real.sin phi * x + Real.cos phi * y
  let xy := if phi > 2 * Real.pi then (y_prime, x_prime) else (x_prime, y_prime)
  (xy.1 + offset, xy.2 + offset)

/-- Embedding of `symmetric_transform` from `rl4co/data/transforms.py`, with the `x` and
`y` input tensors merged into one list of coordinate pairs per batch row and
`phi` the per-batch-row list of angles (the source broadcasts
`phi[:, None, None]` over the graph axis). -/
noncomputable def symmetric_transform (xy : T3R) (phi : List ℝ) (offset : ℝ) :
    T3R :=
  List.zipWith
    (fun row ph => row.map (fun p => symmetric_transform_point p ph offset))
    xy phi

/-- In-place zeroing of the first `k` entries, the embedding of
`phi[:k] = 0.0`. -/
def setZeroUpTo (k : ℕ) (l : List ℝ) : List ℝ :=
  (l.take k).map (fun _ => 0) ++ l.drop k

/-- Embedding of `symmetric_augmentation` from `rl4co/data/transforms.py`.  The tensor
`torch.rand(xy.shape[0]) * 4 * pi` of per-row random angles is passed in as
`draws`; unless `first_augment` is set, the first `xy.length / num_augment`
angles are overwritten with `0.0` before the transform is applied with the
default offset `0.5`. -/
noncomputable def symmetric_augmentation (xy : T3R) (draws : List ℝ)
    (num_augment : ℕ) (first_augment : Bool) : T3R :=
  let phi := if first_augment then draws
    else setZeroUpTo (xy.length / num_augment) draws
  symmetric_transform xy phi (1 / 2)

/-- Follows the spec's words for the symmetric transform: coordinates are
recentered around the offset, rotated by `phi`, restored, and the two axes
are swapped exactly when the drawn angle strictly exceeds the `2 * pi`
split. -/
noncomputable def symmetric_transform_spec (p : ℝ × ℝ) (phi offset : ℝ) :
    ℝ × ℝ :=
  let q := (Real.cos phi * (p.1 - offset) - Real.sin phi * (p.2 - offset),
            Real.sin phi * (p.1 - offset) + Real.cos phi * (p.2 - offset))
  let r := (q.1 + offset, q.2 + offset)
  if 2 * Real.pi < phi then (r.2, r.1) else r

/-- Squared Euclidean distance between two planar points. -/
def sqDist (p q : ℝ × ℝ) : ℝ := (p.1 - q.1) ^ 2 + (p.2 - q.2) ^ 2

/-- Euclidean distance between two planar points. -/
noncomputable def euclDist (p q : ℝ × ℝ) : ℝ := Real.sqrt (sqDist p q)

/-- Modelled from the spec: `batchify` (imported by `transforms.py` from
`rl4co.utils.ops`, whose source is not part of this excerpt) tiles the batch
axis: the result is `n` stacked copies of the original batch, so
augmentation-group-relative replica `r` of instance `i` sits at row
`r * b + i`, and the replica-0 rows of all groups are rows `0 .. b - 1`.
This matches the block layout `dihedral_8_augmentation` produces. -/
def batchify (t : T3) (n : ℕ) : T3 :=
  (List.replicate n t).flatten

/-- All scalar entries of a tensor, in order: torch's global `.min()`/`.max()`
range over both coordinates of every node of every batch row. -/
def T3.elems (t : T3) : List ℚ :=
  t.flatten.flatMap (fun p => [p.1, p.2])

/-- Indexing `t[i, j]` on a `[batch, graph, 2]` tensor; `none` models the
`IndexError` torch raises when a position is out of range. -/
def T3.get2 (t : T3) (i j : ℕ) : Option (ℚ × ℚ) :=
  (t[i]?).bind (fun row => row[j]?)

/-- The in-place write `t[i, j] = v` (only ever reached in-bounds in the
code paths modelled here; out of range it leaves `t` unchanged). -/
def T3.set2 (t : T3) (i j : ℕ) (v : ℚ × ℚ) : T3 :=
  match t[i]? with
  | some row => t.set i (row.set j v)
  | none => t

/-- Embedding of `min_max_normalize` from `rl4co/data/transforms.py`, applied to a whole
feature tensor as in `StateAugmentation.__call__`:
`(x - x.min()) / (x.max() - x.min())` with **no** zero-range guard.  `none`
models a non-finite float result: on a constant tensor torch computes
`0 / 0 = NaN` in every entry (and on an empty tensor `.min()` raises). -/
def min_max_normalize (t : T3) : Option T3 :=
  match (T3.elems t).min?, (T3.elems t).max? with
  | some m, some M =>
    if M - m = 0 then none
    else some (t.map (List.map
        (fun p => ((p.1 - m) / (M - m), (p.2 - m) / (M - m)))))
  | _, _ => none

/-- One iteration of the feature loop in `StateAugmentation.__call__` from
`rl4co/data/transforms.py`, for a single feature tensor `t` of the input
TensorDict (the features are processed independently).  `t.length` is
`td.size()`, the original batch size `b`, so `td_aug[feat][*td.size(), 0]`
reads the single entry at batch row `b`, node `0`, and the restoration under
`first_aug_identity` writes that same single entry.  The configured
augmentation function (with its random draws, if any, already fixed) is
passed as `augmentation`.  `none` models a raised `IndexError` or a
NaN-containing normalization result. -/
def StateAugmentation.callFeat (augmentation : T3 → ℕ → T3)
    (num_augment : ℕ) (normalize first_aug_identity : Bool) (t : T3) :
    Option T3 := do
  let td_aug := batchify t num_augment
  let init_aug_feat ← T3.get2 td_aug t.length 0
  let aug_feat := augmentation td_aug num_augment
  let aug_feat ← if normalize then min_max_normalize aug_feat
    else pure aug_feat
  if first_aug_identity then do
    let _ ← T3.get2 aug_feat t.length 0
    pure (T3.set2 aug_feat t.length 0 init_aug_feat)
  else
    pure aug_feat

/-- The `augment_fn` argument of `StateAugmentation.__init__`: either a
callable or a name string. -/
inductive AugmentArg where
  | callable (f : T3 → ℕ → T3)
  | name (s : String)

/-- The value returned by `get_augment_function`: one of the two library
functions, or the user's own callable.  Python compares these by object
identity (`self.augmentation == dihedral_8_augmentation_wrapper`), which the
constructor distinction mirrors. -/
inductive AugFunc where
  | dihedral8Wrapper
  | symmetricAug
  | custom (f : T3 → ℕ → T3)

/-- Embedding of `get_augment_function` from `rl4co/data/transforms.py`: callables pass
through; the names `"dihedral8"` and `"symmetric"` select the two library
functions; anything else raises `ValueError` (embedded as `.error`). -/
def get_augment_function (a : AugmentArg) : Except String AugFunc :=
  match a with
  | .callable f => .ok (.custom f)
  | .name s =>
    if s = "dihedral8" then .ok .dihedral8Wrapper
    else if s = "symmetric" then .ok .symmetricAug
    else .error ("Unknown augment_fn: " ++ s)

/-- The fields `StateAugmentation.__init__` stores on success. -/
structure StateAugmentationCfg where
  augmentation : AugFunc
  feats : List String
  num_augment : ℕ
  normalize : Bool
  first_aug_identity : Bool

/-- Embedding of `StateAugmentation.__init__` from `rl4co/data/transforms.py`:
`get_augment_function` may raise `ValueError`, then the assertion rejects the
`dihedral8` wrapper whenever `num_augment != 8`; both failures happen at
construction time, before any call.  `feats` defaults to `["locs"]`. -/
def StateAugmentation.init (num_augment : ℕ) (augment_fn : AugmentArg)
    (first_aug_identity normalize : Bool) (feats : Option (List String)) :
    Except String StateAugmentationCfg :=
  match get_augment_function augment_fn with
  | .error e => .error e
  | .ok aug =>
    match aug with
    | .dihedral8Wrapper =>
      if num_augment ≠ 8 then
        .error
          "If using the dihedral8 augmentation function, then num_augment must be 8"
      else
        .ok { augmentation := aug, feats := feats.getD ["locs"],
              num_augment := num_augment, normalize := normalize,
              first_aug_identity := first_aug_identity }
    | _ =>
      .ok { augmentation := aug, feats := feats.getD ["locs"],
            num_augment := num_augment, normalize := normalize,
            first_aug_identity := first_aug_identity }

/-- A concrete example of a user-supplied augmentation callable: shifts every
coordinate by one.  Used to evaluate `StateAugmentation.callFeat` on explicit
inputs. -/
def shiftAug (t : T3) (n : ℕ) : T3 :=
  t.map (List.map (fun p => (p.1 + 1, p.2 + 1)))

/-- The collaborators `POMOPolicy.forward` composes
(`ncobench/models/co/pomo/policy.py`); they are external to the excerpt and
are specified only by their interfaces (spec sections 2 and 6): the embedding
adapter, the encoder (whose second output `forward` discards), the decoder,
the log-likelihood aggregator, and the TensorDict accessors `td["reward"]`
and `td.get("mask", None)` used on the decoder's returned TensorDict. -/
structure POMOModel (TD Emb Enc LogP Act Mask Rew LL : Type) where
  init_embedding : TD → Emb
  encoder : Emb → Enc × Enc
  decoder : TD → Enc → String → LogP × Act × TD
  get_log_likelihood : LogP → Act → Option Mask → LL
  getMask : TD → Option Mask
  getReward : TD → Rew

/-- The dictionary `POMOPolicy.forward` returns. -/
structure POMOOut (Rew LL Act : Type) where
  reward : Rew
  log_likelihood : LL
  actions : Option Act

/-- Embedding of `POMOPolicy.forward` from `ncobench/models/co/pomo/policy.py`: embed,
encode (keeping the first component), decode with the selected decode type,
aggregate the log-likelihood with the mask of the decoder's TensorDict, and
return reward, log-likelihood and (optionally) the actions.  The `phase`
argument is accepted and never read. -/
def POMOPolicy.forward {TD Emb Enc LogP Act Mask Rew LL : Type}
    (m : POMOModel TD Emb Enc LogP Act Mask Rew LL) (td : TD)
    (phase : String) (decode_type : String) (return_actions : Bool) :
    POMOOut Rew LL Act :=
  let embedding := m.init_embedding td
  let encoded_inputs := (m.encoder embedding).1
  let step := m.decoder td encoded_inputs decode_type
  let actions := step.2.1
  let td9 := step.2.2
  let ll := m.get_log_likelihood step.1 actions (m.getMask td9)
  { reward := m.getReward td9, log_likelihood := ll,
    actions := if return_actions then some actions else none }

lemma dihedral_8_augmentation_length (xy : T3) :
    (dihedral_8_augmentation xy).length = 8 * xy.length := by
  simp only [dihedral_8_augmentation, List.length_append, List.length_map]
  omega

/-- Slicing the flattening of equal-length blocks recovers each block. -/
lemma flatten_slice {α : Type _} (L : List (List α)) (b : ℕ)
    (h : ∀ l ∈ L, l.length = b) :
    ∀ k, k < L.length → ((L.flatten.drop (k * b)).take b) = L.getD k [] := by
  induction L with
  | nil => intro k hk; simp at hk
  | cons l L ih =>
    intro k hk
    cases k with
    | zero =>
      simp only [List.flatten_cons, Nat.zero_mul, List.drop_zero,
        List.getD_cons_zero]
      exact List.take_left' (h l (List.mem_cons_self l L))
    | succ k =>
      have hl : l.length = b := h l (List.mem_cons_self l L)
      have h2 : (k + 1) * b = l.length + k * b := by rw [hl]; ring
      rw [List.flatten_cons, h2, List.drop_append, List.getD_cons_succ]
      exact ih (fun x hx => h x (List.mem_cons_of_mem _ hx)) k
        (by simpa using hk)

lemma dihedral_eq_flatten (xy : T3) :
    dihedral_8_augmentation xy
      = (dihedralFns.map (fun f => xy.map (List.map f))).flatten := by
  simp [dihedral_8_augmentation, dihedralFns]

lemma dihedral_slice (xy : T3) (k : Fin 8) :
    ((dihedral_8_augmentation xy).drop (k.val * xy.length)).take xy.length
      = xy.map (List.map (dihedralImage k)) := by
  rw [dihedral_eq_flatten]
  have hlen : ∀ l ∈ dihedralFns.map (fun f => xy.map (List.map f)),
      l.length = xy.length := by
    intro l hl
    simp only [List.mem_map, dihedralFns] at hl
    obtain ⟨f, _, rfl⟩ := hl
    simp
  have hk : k.val < (dihedralFns.map (fun f => xy.map (List.map f))).length := by
    simpa [dihedralFns] using k.isLt
  rw [flatten_slice _ _ hlen k.val hk]
  fin_cases k <;> rfl

lemma dihedralImage_dinv (k : Fin 8) (p : ℚ × ℚ) :
    dihedralImage (dinv k) (dihedralImage k p) = p := by
  obtain ⟨x, y⟩ := p
  fin_cases k <;>
    simp only [dihedralImage, dinv, Prod.mk.injEq] <;>
    constructor <;> ring

lemma symmetric_transform_point_zero (p : ℝ × ℝ) (offset : ℝ) :
    symmetric_transform_point p 0 offset = p := by
  obtain ⟨x, y⟩ := p
  simp only [symmetric_transform_point, Real.cos_zero, Real.sin_zero,
    gt_iff_lt, not_lt.2 (le_of_lt Real.two_pi_pos), if_neg,
    not_lt_of_ge (le_of_lt Real.two_pi_pos)]
  rw [if_neg (by simpa using not_lt_of_ge (le_of_lt Real.two_pi_pos))]
  simp only [Prod.mk.injEq]
  constructor <;> ring

lemma sqDist_symmetric_transform_point (p q : ℝ × ℝ) (phi offset : ℝ) :
    sqDist (symmetric_transform_point p phi offset)
        (symmetric_transform_point q phi offset)
      = sqDist p q := by
  obtain ⟨x1, y1⟩ := p
  obtain ⟨x2, y2⟩ := q
  have h := Real.sin_sq_add_cos_sq phi
  simp only [symmetric_transform_point, sqDist]
  split <;>
    · simp only
      linear_combination ((x1 - x2) ^ 2 + (y1 - y2) ^ 2) * h

lemma flatten_replicate_nil {α : Type _} (n : ℕ) :
    (List.replicate n ([] : List α)).flatten = [] := by
  induction n with
  | zero => rfl
  | succ k ih => simp [List.replicate_succ, ih]

lemma batchify_length (t : T3) (n : ℕ) :
    (batchify t n).length = n * t.length := by
  simp [batchify, List.length_flatten, List.map_replicate,
    List.sum_replicate, smul_eq_mul]

lemma batchify_getElem_len (t : T3) (n : ℕ) (hn : 2 ≤ n) :
    (batchify t n)[t.length]? = t[0]? := by
  obtain ⟨k, rfl⟩ : ∃ k, n = k + 2 := ⟨n - 2, by omega⟩
  show ((List.replicate (k + 2) t).flatten)[t.length]? = t[0]?
  rw [List.replicate_succ, List.flatten_cons,
    List.getElem?_append_right (le_refl t.length), Nat.sub_self,
    List.replicate_succ, List.flatten_cons]
  cases t with
  | nil => simp [flatten_replicate_nil]
  | cons a t2 => simp

lemma get2_set2_self (t : T3) (i j : ℕ) (v w : ℚ × ℚ)
    (h : T3.get2 t i j = some w) :
    T3.get2 (T3.set2 t i j v) i j = some v := by
  unfold T3.get2 at h
  cases hrow : t[i]? with
  | none => rw [hrow] at h; simp at h
  | some row =>
    rw [hrow] at h
    simp only [Option.some_bind] at h
    have hi : i < t.length := (List.getElem?_eq_some.mp hrow).1
    have hj : j < row.length := (List.getElem?_eq_some.mp h).1
    unfold T3.set2 T3.get2
    rw [hrow]
    rw [List.getElem?_set_eq_of_lt _ (by simpa using hi)]
    simp only [Option.some_bind]
    exact List.getElem?_set_eq_of_lt _ hj

/-- Claim C2: `dihedral_8_augmentation` maps a `(batch, nodes, 2)` tensor to
a `(batch * 8, nodes, 2)` tensor whose eight batch slices are, in this fixed
order, the images `(x,y)`, `(1-x,y)`, `(x,1-y)`, `(1-x,1-y)`, `(y,x)`,
`(1-y,x)`, `(y,1-x)`, `(1-y,1-x)`; the first slice is the identity image,
and applying the transform twice to the first of the 8 outputs returns the
original input unchanged. -/
theorem dihedral_8_augmentation_slices (xy : T3) :
    (dihedral_8_augmentation xy).length = 8 * xy.length
    ∧ (∀ k : Fin 8,
        ((dihedral_8_augmentation xy).drop (k.val * xy.length)).take xy.length
          = xy.map (List.map (dihedralImage k)))
    ∧ (dihedral_8_augmentation xy).take xy.length = xy
    ∧ (dihedral_8_augmentation
        ((dihedral_8_augmentation xy).take xy.length)).take xy.length = xy := by
  have hid : ∀ ys : T3, (dihedral_8_augmentation ys).take ys.length = ys := by
    intro ys
    have h := dihedral_slice ys 0
    simp only [Fin.val_zero, Nat.zero_mul, List.drop_zero] at h
    rw [h]
    calc ys.map (List.map (dihedralImage 0)) = ys.map (List.map id) := rfl
      _ = ys := by simp
  exact ⟨dihedral_8_augmentation_length xy, dihedral_slice xy, hid xy,
    by rw [hid xy, hid xy]⟩

/-- Claim C4 counterexample: dihedral image 5, `(x,y) -> (1-y,x)`, is a
90-degree rotation, not an involution: re-transforming batch slice 5 of the
augmented batch `[[(0,0)]]` by the same image gives `[[(1,1)]]`, not the
original `[[(0,0)]]`. -/
theorem dihedral_slice5_not_self_inverse :
    (((dihedral_8_augmentation [[((0:ℚ), (0:ℚ))]]).drop (5 * 1)).take 1).map
        (List.map (dihedralImage 5))
      ≠ [[((0:ℚ), (0:ℚ))]] := by
  have h5 := dihedral_slice [[((0:ℚ), (0:ℚ))]] 5
  have hval : ((5 : Fin 8) : ℕ) = 5 := rfl
  have hlen : ([[((0:ℚ), (0:ℚ))]] : T3).length = 1 := rfl
  rw [hval, hlen] at h5
  rw [h5, List.map_map]
  have h55 : (List.map (dihedralImage 5) ∘ List.map (dihedralImage 5))
      [((0:ℚ), (0:ℚ))] = [((1:ℚ) - 0, 1 - 0)] := rfl
  simp only [List.map_cons, List.map_nil, h55]
  intro hcon
  rw [List.cons.injEq, List.cons.injEq, Prod.mk.injEq] at hcon
  have := hcon.1.1.1
  norm_num at this

/-- Claim C4 (amended): each batch slice `k` of `dihedral_8_augmentation`,
re-transformed by its group inverse `dinv k` — the image itself for the six
involutions `k` in `{0,1,2,3,4,7}`, and the opposite 90-degree rotation for
the mutually inverse pair `k = 5`, `k = 6` — reproduces the original input
exactly. -/
theorem dihedral_8_retransform_inverse (xy : T3) (k : Fin 8) :
    (((dihedral_8_augmentation xy).drop (k.val * xy.length)).take
        xy.length).map (List.map (dihedralImage (dinv k)))
      = xy := by
  rw [dihedral_slice, List.map_map]
  have hcomp : (List.map (dihedralImage (dinv k)) ∘ List.map (dihedralImage k))
      = fun row => row.map (dihedralImage (dinv k) ∘ dihedralImage k) := by
    funext row
    simp [List.map_map]
  rw [hcomp]
  have hinv : (dihedralImage (dinv k) ∘ dihedralImage k) = id :=
    funext fun p => dihedralImage_dinv k p
  simp [hinv]

/-- Claim C6: `min_max_normalize` has no zero-range guard: on the constant
tensor `[[(1/2, 1/2)]]` it computes `0 / 0`, a NaN (embedded as `none`),
instead of detecting the zero range and skipping normalization. -/
theorem min_max_normalize_constant_nan :
    min_max_normalize [[((1:ℚ)/2, 1/2)]] = none := by
  have he : T3.elems [[((1:ℚ)/2, 1/2)]] = [1/2, 1/2] := rfl
  have hmin : List.min? [(1:ℚ)/2, 1/2] = some (1/2) := by simp [List.min?]
  have hmax : List.max? [(1:ℚ)/2, 1/2] = some (1/2) := by simp [List.max?]
  simp only [min_max_normalize, he, hmin, hmax]
  norm_num

/-- Claim C9: the `phase` indicator of `POMOPolicy.forward` affects no logic:
with identical collaborators, instance batch, decode-type selector,
`return_actions` flag (hence identical random draws inside the deterministic
collaborator functions), any two phases give identical reward, log-likelihood
and actions. -/
theorem pomo_forward_phase_independent {TD Emb Enc LogP Act Mask Rew LL : Type}
    (m : POMOModel TD Emb Enc LogP Act Mask Rew LL) (td : TD)
    (phase1 phase2 decode_type : String) (return_actions : Bool) :
    POMOPolicy.forward m td phase1 decode_type return_actions
      = POMOPolicy.forward m td phase2 decode_type return_actions := rfl

/-- Claim C5: constructing `StateAugmentation` with `augment_fn = "dihedral8"`
and any `num_augment` other than 8 fails at construction (the assertion), and
constructing with the unknown name `"unknown"` fails at construction
(`ValueError` from `get_augment_function`). -/
theorem stateAugmentation_init_rejects (n : ℕ) (hn : n ≠ 8) (fai nor : Bool)
    (feats : Option (List String)) :
    (∃ e, StateAugmentation.init n (.name "dihedral8") fai nor feats
        = .error e)
    ∧ (∃ e, StateAugmentation.init n (.name "unknown") fai nor feats
        = .error e) := by
  constructor
  · have hstep : StateAugmentation.init n (.name "dihedral8") fai nor feats
        = if n ≠ 8 then
            .error
              "If using the dihedral8 augmentation function, then num_augment must be 8"
          else
            .ok { augmentation := .dihedral8Wrapper,
                  feats := feats.getD ["locs"], num_augment := n,
                  normalize := nor, first_aug_identity := fai } := rfl
    exact ⟨_, by rw [hstep, if_pos hn]⟩
  · exact ⟨_, (rfl : StateAugmentation.init n (.name "unknown") fai nor feats
      = .error ("Unknown augment_fn: " ++ "unknown"))⟩

/-- Claim C5 witness: `num_augment = 4` with `"dihedral8"` is rejected, and
the name `"unknown"` is rejected. -/
theorem stateAugmentation_init_rejects_witness :
    (∃ e, StateAugmentation.init 4 (.name "dihedral8") false false none
        = .error e)
    ∧ (∃ e, StateAugmentation.init 4 (.name "unknown") false false none
        = .error e) :=
  stateAugmentation_init_rejects 4 (by decide) false false none

/-- Claim C3 counterexample: at the drawn angle `phi = 2 * pi`, which the
claim places in the reflecting interval `[2*pi, 4*pi)`, no axis swap happens
(the source swaps only for `phi > 2*pi`, strictly): the transform maps
`(3/5, 1/2)` with offset `1/2` to itself, not to the swapped `(1/2, 3/5)`
that a reflection combined with the full-turn rotation would produce. -/
theorem symmetric_transform_two_pi_no_swap :
    symmetric_transform_point ((3:ℝ)/5, 1/2) (2 * Real.pi) (1/2)
        = ((3:ℝ)/5, 1/2)
    ∧ (((3:ℝ)/5, (1/2:ℝ)) : ℝ × ℝ) ≠ ((1/2:ℝ), (3:ℝ)/5) := by
  constructor
  · simp only [symmetric_transform_point, Real.cos_two_pi, Real.sin_two_pi,
      gt_iff_lt, lt_self_iff_false, if_false, Prod.mk.injEq]
    constructor <;> norm_num
  · intro hcon
    have h1 : (3:ℝ)/5 = 1/2 := congrArg Prod.fst hcon
    norm_num at h1

/-- Claim C3 (amended): `symmetric_transform` subtracts the offset, rotates
by `phi`, adds the offset back, and swaps the axes exactly when the drawn
angle strictly exceeds `2 * pi` — so `[0, 2*pi]` gives a pure rotation and
`(2*pi, 4*pi)` additionally reflects; over a uniform draw on `[0, 4*pi)` the
strict split still reflects half the time. -/
theorem symmetric_transform_point_eq_spec (p : ℝ × ℝ) (phi offset : ℝ) :
    symmetric_transform_point p phi offset
      = symmetric_transform_spec p phi offset := by
  obtain ⟨x, y⟩ := p
  by_cases h : 2 * Real.pi < phi <;>
    simp [symmetric_transform_point, symmetric_transform_spec, h]

/-- Claim C8: the symmetric transform preserves all pairwise Euclidean
distances between nodes of the same instance: if nodes `j` and `k` of batch
row `i` hold `p` and `q`, the corresponding nodes of the transformed batch
row are at exactly the same Euclidean distance. -/
theorem symmetric_transform_preserves_distances (xy : T3R) (phi : List ℝ)
    (offset : ℝ) (i j k : ℕ) (row trow : List (ℝ × ℝ)) (p q tp tq : ℝ × ℝ)
    (hrow : xy[i]? = some row)
    (htrow : (symmetric_transform xy phi offset)[i]? = some trow)
    (hp : row[j]? = some p) (hq : row[k]? = some q)
    (htp : trow[j]? = some tp) (htq : trow[k]? = some tq) :
    euclDist tp tq = euclDist p q := by
  obtain ⟨row2, ph, hrow2, hph, heq⟩ :=
    List.getElem?_zipWith_eq_some.mp htrow
  rw [hrow] at hrow2
  have hr : row2 = row := (Option.some.inj hrow2).symm
  rw [hr] at heq
  have heq2 : List.map (fun p0 => symmetric_transform_point p0 ph offset) row
      = trow := heq
  rw [← heq2, List.getElem?_map, hp] at htp
  rw [← heq2, List.getElem?_map, hq] at htq
  simp only [Option.map_some'] at htp htq
  have htp2 := Option.some.inj htp
  have htq2 := Option.some.inj htq
  rw [← htp2, ← htq2]
  simp only [euclDist]
  rw [sqDist_symmetric_transform_point]

/-- Claim C8 witness: a concrete two-node instance transformed with angle 0
and offset 0 keeps its node distance. -/
theorem symmetric_transform_preserves_distances_witness :
    euclDist (symmetric_transform_point ((0:ℝ), 0) 0 0)
        (symmetric_transform_point ((1:ℝ), 0) 0 0)
      = euclDist ((0:ℝ), (0:ℝ)) ((1:ℝ), (0:ℝ)) :=
  symmetric_transform_preserves_distances
    [[((0:ℝ), 0), ((1:ℝ), 0)]] [0] 0 0 0 1
    [((0:ℝ), 0), ((1:ℝ), 0)]
    [symmetric_transform_point ((0:ℝ), 0) 0 0,
     symmetric_transform_point ((1:ℝ), 0) 0 0]
    ((0:ℝ), 0) ((1:ℝ), 0)
    (symmetric_transform_point ((0:ℝ), 0) 0 0)
    (symmetric_transform_point ((1:ℝ), 0) 0 0)
    rfl rfl rfl rfl rfl rfl

/-- Claim C10: with the default `first_augment = false`,
`symmetric_augmentation` forces the rotation angle to `0` for the first
`batch / num_augment` rows, and the zero-angle symmetric transform (which
also does not reflect, since `0` is not above `2 * pi`) is the identity, so
those leading output rows equal the corresponding input rows. -/
theorem symmetric_augmentation_identity_rows (xy : T3R) (draws : List ℝ)
    (num_augment : ℕ) (hlen : draws.length = xy.length) (i : ℕ)
    (hi : i < xy.length / num_augment) :
    (symmetric_augmentation xy draws num_augment false)[i]? = xy[i]? := by
  have hixy : i < xy.length := lt_of_lt_of_le hi (Nat.div_le_self _ _)
  have hrow : xy[i]? = some xy[i] := List.getElem?_eq_getElem hixy
  set k := xy.length / num_augment with hk
  have hzero : (setZeroUpTo k draws)[i]? = some 0 := by
    unfold setZeroUpTo
    have hlt : i < ((draws.take k).map (fun _ => (0:ℝ))).length := by
      simp only [List.length_map, List.length_take]
      omega
    have h2 : i < (draws.take k).length := by
      simp only [List.length_take]
      omega
    rw [List.getElem?_append_left hlt, List.getElem?_map,
      List.getElem?_eq_getElem h2]
    rfl
  show (List.zipWith
      (fun row ph => row.map (fun p => symmetric_transform_point p ph (1/2)))
      xy (setZeroUpTo k draws))[i]? = xy[i]?
  rw [hrow, List.getElem?_zipWith_eq_some]
  refine ⟨xy[i], 0, hrow, hzero, ?_⟩
  show (xy[i]).map (fun p => symmetric_transform_point p 0 (1/2)) = xy[i]
  have hfun : (fun p : ℝ × ℝ => symmetric_transform_point p 0 (1/2)) = id :=
    funext fun p => symmetric_transform_point_zero p _
  rw [hfun, List.map_id]

/-- Claim C10 witness: a one-row batch with `num_augment = 1` and an
arbitrary nonzero draw passes through row 0 unchanged. -/
theorem symmetric_augmentation_identity_rows_witness :
    (symmetric_augmentation [[((1:ℝ)/4, 3/4)]] [5] 1 false)[0]?
      = ([[((1:ℝ)/4, 3/4)]] : T3R)[0]? :=
  symmetric_augmentation_identity_rows [[((1:ℝ)/4, 3/4)]] [5] 1 rfl 0
    (by norm_num)

/-- Claim C1: evaluation of `StateAugmentation.__call__` (one feature) at the
failing input: batch `[[(0,0)]]` (one instance, one node), `num_augment = 2`,
a custom shift transform, `normalize = false`, `first_aug_identity = true`.
The result is `[[(1,1)], [(0,0)]]`: group-relative replica 0 of the only
augmentation group (row 0) holds the transformed `(1,1)`, not the original
`(0,0)` — `aug_feat[*td.size(), 0] = init_aug_feat` wrote back only the
single entry at batch row `b = 1`, node `0`. -/
theorem callFeat_replica0_not_restored :
    StateAugmentation.callFeat shiftAug 2 false true [[((0:ℚ), 0)]]
        = some [[((1:ℚ), 1)], [(0, 0)]]
    ∧ ([[((1:ℚ), (1:ℚ))]] : T3) ≠ [[((0:ℚ), (0:ℚ))]] := by
  constructor
  · have h0 : StateAugmentation.callFeat shiftAug 2 false true [[((0:ℚ), 0)]]
        = some [[((0:ℚ) + 1, 0 + 1)], [(0, 0)]] := rfl
    rw [h0]
    norm_num
  · intro hcon
    have h1 := congrArg (fun l => T3.get2 l 0 0) hcon
    simp [T3.get2] at h1

/-- Claim C7 (amended): with `normalize = true` and `first_aug_identity =
true`, whenever `__call__` succeeds on a feature the pipeline order is:
augment, min-max-normalize the whole augmented tensor, then write back the
single entry read (pre-transform, pre-normalization) at batch row
`b = t.length`, node `0` of the batchified original — which equals node 0 of
original instance 0 — so the one entry that is restored holds the true
original value, not a renormalized one. -/
theorem callFeat_normalize_restores_prenormalized (f : T3 → ℕ → T3)
    (A : ℕ) (t : T3) (out : T3)
    (h : StateAugmentation.callFeat f A true true t = some out) :
    ∃ nrm v,
      min_max_normalize (f (batchify t A) A) = some nrm
      ∧ T3.get2 (batchify t A) t.length 0 = some v
      ∧ T3.get2 t 0 0 = some v
      ∧ out = T3.set2 nrm t.length 0 v
      ∧ T3.get2 out t.length 0 = some v := by
  have hunfold : StateAugmentation.callFeat f A true true t
      = (T3.get2 (batchify t A) t.length 0).bind fun init =>
          (min_max_normalize (f (batchify t A) A)).bind fun nrm =>
            (T3.get2 nrm t.length 0).bind fun _ =>
              some (T3.set2 nrm t.length 0 init) := rfl
  rw [hunfold] at h
  obtain ⟨v, hv, h⟩ := Option.bind_eq_some.mp h
  obtain ⟨nrm, hnrm, h⟩ := Option.bind_eq_some.mp h
  obtain ⟨w, hw, h⟩ := Option.bind_eq_some.mp h
  have hout : out = T3.set2 nrm t.length 0 v := (Option.some.inj h).symm
  have hb : t.length < (batchify t A).length := by
    have hv2 := hv
    unfold T3.get2 at hv2
    cases hrowb : (batchify t A)[t.length]? with
    | none => rw [hrowb] at hv2; simp at hv2
    | some r => exact (List.getElem?_eq_some.mp hrowb).1
  rw [batchify_length] at hb
  have hA : 2 ≤ A := by
    rcases Nat.lt_or_ge A 2 with hA2 | hA2
    · exfalso
      have hle : A * t.length ≤ 1 * t.length :=
        Nat.mul_le_mul_right _ (by omega)
      rw [one_mul] at hle
      omega
    · exact hA2
  have hget0 : T3.get2 t 0 0 = some v := by
    have hbg := batchify_getElem_len t A hA
    unfold T3.get2 at hv ⊢
    rw [← hbg]
    exact hv
  exact ⟨nrm, v, hnrm, hv, hget0, hout,
    hout ▸ get2_set2_self nrm t.length 0 v w hw⟩

lemma callFeat_concrete_eval :
    StateAugmentation.callFeat shiftAug 2 true true [[((1:ℚ), 1), (3, 1)]]
      = some [[(0, 0), (1, 0)], [(1, 1), (1, 0)]] := by
  have hb : batchify [[((1:ℚ), 1), (3, 1)]] 2
      = [[(1, 1), (3, 1)], [(1, 1), (3, 1)]] := rfl
  have haug2 : shiftAug [[((1:ℚ), 1), (3, 1)], [(1, 1), (3, 1)]] 2
      = [[(2, 2), (4, 2)], [(2, 2), (4, 2)]] := by
    have haug : shiftAug [[((1:ℚ), 1), (3, 1)], [(1, 1), (3, 1)]] 2
        = [[(1 + 1, 1 + 1), (3 + 1, 1 + 1)],
           [(1 + 1, 1 + 1), (3 + 1, 1 + 1)]] := rfl
    rw [haug]
    norm_num
  have hmin : List.min? [(2:ℚ), 2, 4, 2, 2, 2, 4, 2] = some 2 := by
    norm_num [List.min?, List.foldl_cons, List.foldl_nil, min_def]
  have hmax : List.max? [(2:ℚ), 2, 4, 2, 2, 2, 4, 2] = some 4 := by
    norm_num [List.max?, List.foldl_cons, List.foldl_nil, max_def]
  have hnrm : min_max_normalize [[((2:ℚ), 2), (4, 2)], [(2, 2), (4, 2)]]
      = some [[(0, 0), (1, 0)], [(0, 0), (1, 0)]] := by
    have he : T3.elems [[((2:ℚ), 2), (4, 2)], [(2, 2), (4, 2)]]
        = [2, 2, 4, 2, 2, 2, 4, 2] := rfl
    simp only [min_max_normalize, he, hmin, hmax]
    norm_num [List.map_cons, List.map_nil]
  have hstep : StateAugmentation.callFeat shiftAug 2 true true
        [[((1:ℚ), 1), (3, 1)]]
      = (min_max_normalize
            (shiftAug (batchify [[((1:ℚ), 1), (3, 1)]] 2) 2)).bind
          fun nrm => (T3.get2 nrm 1 0).bind fun _ =>
            some (T3.set2 nrm 1 0 ((1:ℚ), 1)) := rfl
  rw [hstep, hb, haug2, hnrm]
  rfl

/-- Claim C7 witness: the amended statement instantiated at the shift
transform, `num_augment = 2` and the instance `[(1,1),(3,1)]`: the min-max
range of the augmented tensor is `[2,4]`, the normalized tensor is
`[[(0,0),(1,0)],[(0,0),(1,0)]]`, and the restored entry at row 1, node 0 is
the pre-normalization original `(1,1)`. -/
theorem callFeat_normalize_restores_prenormalized_witness :
    ∃ nrm v,
      min_max_normalize (shiftAug (batchify [[((1:ℚ), 1), (3, 1)]] 2) 2)
          = some nrm
      ∧ T3.get2 (batchify [[((1:ℚ), 1), (3, 1)]] 2)
          ([[((1:ℚ), 1), (3, 1)]] : T3).length 0 = some v
      ∧ T3.get2 [[((1:ℚ), 1), (3, 1)]] 0 0 = some v
      ∧ [[((0:ℚ), 0), (1, 0)], [(1, 1), (1, 0)]]
          = T3.set2 nrm ([[((1:ℚ), 1), (3, 1)]] : T3).length 0 v
      ∧ T3.get2 [[((0:ℚ), 0), (1, 0)], [(1, 1), (1, 0)]]
          ([[((1:ℚ), 1), (3, 1)]] : T3).length 0 = some v :=
  callFeat_normalize_restores_prenormalized shiftAug 2
    [[((1:ℚ), 1), (3, 1)]] [[(0, 0), (1, 0)], [(1, 1), (1, 0)]]
    callFeat_concrete_eval

/-- Claim C7 counterexample: with `normalize = true` and
`first_aug_identity = true`, the replica-0 slice of the result is NOT the
original instance: for input `[(1,1),(3,1)]` the first output row is the
normalized transformed `[(0,0),(1,0)]` — no "identity slice" is restored,
only the single entry at batch row `b`, node `0`. -/
theorem callFeat_identity_slice_not_original :
    (StateAugmentation.callFeat shiftAug 2 true true
        [[((1:ℚ), 1), (3, 1)]]).map (List.take 1)
      = some [[((0:ℚ), 0), (1, 0)]]
    ∧ ([[((0:ℚ), (0:ℚ)), ((1:ℚ), (0:ℚ))]] : T3)
      ≠ [[((1:ℚ), 1), (3, 1)]] := by
  constructor
  · rw [callFeat_concrete_eval]
    rfl
  · intro hcon
    have h1 := congrArg (fun l => T3.get2 l 0 0) hcon
    simp [T3.get2] at h1

end RL4CO
